import Mathlib

set_option linter.unusedVariables false

/-!
Shallow embedding of the scholar-link extraction/verification service
(src/core, src/service, src/repository, src/util, src/model).

Modelling conventions:
* Machine floats (confidences, similarity scores) are modelled as rationals.
* External collaborators that are not part of the repository (the HTTP
  transport, the Python `json` parser, pydantic validation of raw bytes,
  PyMuPDF page extraction, the sentence-transformer encoder, Redis) appear
  as explicit outcome/parameter inputs: the embedding covers exactly the
  repository's own control flow around them.
* The asyncio scheduler's completion order of page tasks is an input
  (`completions`), given as the completion-ordered list of per-page
  external-call outcomes.
-/

/-- Claim citation status (model/claim.py, `ClaimStatus`). -/
inductive ClaimStatus
  | cited
  | uncited
  | weakly_cited
deriving DecidableEq, Repr

/-- Claim verdict (model/claim.py, `Verdict`). The source value
`partially_supported` is rendered by the constructor `partSupported`;
wherever the source compares strings, the string literal is used. -/
inductive Verdict
  | supported
  | partSupported
  | unsupported
  | skipped
deriving DecidableEq, Repr

/-- model/claim.py, `Suggestion`. -/
structure Suggestion where
  title : String
  url : String
  venue : Option String := none
  year : Option Int := none
deriving DecidableEq, Repr

/-- model/claim.py, `Evidence`. The Python field named `section` is rendered
`sectionName` (`section` is a Lean keyword). -/
structure Evidence where
  paperTitle : Option String := none
  page : Option Int := none
  sectionName : Option String := none
  paragraph : Option Int := none
  excerpt : Option String := none
deriving DecidableEq, Repr

/-- model/claim.py, `Claim`. Confidence is a rational (source: float). -/
structure Claim where
  id : String
  text : String
  status : ClaimStatus
  verdict : Option Verdict := none
  confidence : Option ℚ := none
  reasoningMd : Option String := none
  suggestions : Option (List Suggestion) := none
  sourceUploaded : Bool := false
  evidence : Option (List Evidence) := none
deriving DecidableEq, Repr

/-- model/api.py, `VerifyClaimResponse` — the persisted verification record. -/
structure VerifyClaimResponse where
  claimId : String
  verdict : Verdict
  confidence : ℚ
  reasoningMd : String
  evidence : Option (List Evidence) := none
deriving DecidableEq, Repr

/-! Character-level models of the Python string primitives the source uses
(`str.strip`, `str.split("\n")`, `str.lower`).  They are written over
`String.data` so that concrete runs reduce inside the Lean kernel. -/

/-- `str.strip()`: drop whitespace from both ends. -/
def trimChars (cs : List Char) : List Char :=
  ((cs.dropWhile Char.isWhitespace).reverse.dropWhile Char.isWhitespace).reverse

/-- `str.strip()` on strings. -/
def pyStrip (s : String) : String := String.mk (trimChars s.data)

/-- `str.split("\n")` at the character level. -/
def splitCharsNL : List Char → List (List Char)
  | [] => [[]]
  | c :: cs =>
    match splitCharsNL cs with
    | [] => [[]]
    | l :: ls => if c = '\n' then [] :: l :: ls else (c :: l) :: ls

/-- `str.split("\n")` on strings. -/
def pySplitNL (s : String) : List String := (splitCharsNL s.data).map String.mk

/-- `str.lower()` (ASCII, which covers every string the source compares). -/
def pyLower (s : String) : String := String.mk (s.data.map Char.toLower)

/-- util/functions.py, `clip_words`: trim to at most `maxWords` whitespace
separated tokens, appending an ellipsis when trimming occurs. -/
def clip_words (text : String) (maxWords : ℕ) : String :=
  let words := (text.split (fun c => c.isWhitespace)).filter (fun w => w ≠ "")
  if words.length ≤ maxWords then text
  else String.intercalate " " (words.take maxWords) ++ " …"

/-- util/functions.py, `stream_merge_saved`: overlay a persisted verification
record onto an emitted claim payload (mutates the payload dict in the source;
pure record update here).  `if saved.evidence:` is Python truthiness: the
evidence field is copied only when it is a non-empty list. -/
def stream_merge_saved (merged : Claim) (saved : VerifyClaimResponse) : Claim :=
  { merged with
      verdict := some saved.verdict
      confidence := some saved.confidence
      reasoningMd := some saved.reasoningMd
      sourceUploaded := true
      evidence := match saved.evidence with
        | some (e :: es) => some (e :: es)
        | _ => merged.evidence }

/-! ### core/llm_verifier.py — response normalization of `anthropic_verify`

The HTTP call and `json.loads` are external.  `VerifierParse.failure` is the
outcome in which the (code-fence-stripped) response text failed to parse as
JSON; `VerifierParse.parsed p` gives the fields the source reads off the
parsed object: `verdict` (string or missing), `confidence` (a number, or
missing, or a value on which `float(...)` raises), `reasoningMd`. -/

/-- The `confidence` field of a parsed verifier response. -/
inductive ConfField
  | missing
  | number (q : ℚ)
  | unparsable
deriving DecidableEq, Repr

/-- Fields of a successfully parsed verifier JSON object. -/
structure ParsedVerdict where
  verdict : Option String := none
  confidence : ConfField := .missing
  reasoningMd : Option String := none
deriving DecidableEq, Repr

/-- Parse outcome of a verifier response text. -/
inductive VerifierParse
  | failure
  | parsed (p : ParsedVerdict)
deriving DecidableEq, Repr

/-- The fallback dict the source substitutes when `json.loads` fails. -/
def verifierDefaultParsed : ParsedVerdict :=
  { verdict := some "unsupported"
    confidence := .number (1/2)
    reasoningMd := some "Unable to parse verifier output." }

/-- core/entities.py, `VerifyResult` (evidence list omitted: the source always
returns it empty from `anthropic_verify`). -/
structure VerifyResult where
  verdict : String
  confidence : ℚ
  reasoning_md : String
deriving DecidableEq, Repr

/-- The verdict strings accepted by the verifier normalization. -/
def allowedVerdicts : List String := ["supported", "partially_supported", "unsupported"]

/-- core/llm_verifier.py, `anthropic_verify`, from the point at which the
response text's JSON parse outcome is known. -/
def anthropic_verify (vo : VerifierParse) : VerifyResult :=
  let parsed := match vo with
    | .failure => verifierDefaultParsed
    | .parsed p => p
  let v0 := pyLower ((parsed.verdict).getD "unsupported")
  let verdict := if v0 ∈ allowedVerdicts then v0 else "unsupported"
  let conf : ℚ := match parsed.confidence with
    | .number q => q
    | _ => 1/2
  let reasoning := pyStrip ((parsed.reasoningMd).getD "")
  { verdict := verdict
    confidence := max 0 (min 1 conf)
    reasoning_md := reasoning }

/-! ### core/embeddings_retriever.py — `top_k`

The sentence-transformer encoder is external; the index is the list of its
(already L2-normalized) row vectors and the query its encoded vector.
`np.argpartition`'s tie selection among the kk largest followed by a stable
descending sort is modelled as a stable descending insertion sort of all
(position, score) pairs followed by `take kk` — one admissible determinization
of numpy's unspecified tie choice. -/

/-- Dot product of two rational vectors. -/
def dotQ (v w : List ℚ) : ℚ := (List.zipWith (fun a b => a * b) v w).sum

/-- Pair each score with its row position, starting at `n`. -/
def idxFrom (n : ℕ) : List ℚ → List (ℕ × ℚ)
  | [] => []
  | x :: xs => (n, x) :: idxFrom (n + 1) xs

/-- Stable insertion into a descending-by-score list. -/
def insertDesc (x : ℕ × ℚ) : List (ℕ × ℚ) → List (ℕ × ℚ)
  | [] => [x]
  | y :: ys => if y.2 ≤ x.2 then x :: y :: ys else y :: insertDesc x ys

/-- Stable descending sort by score. -/
def sortDesc (l : List (ℕ × ℚ)) : List (ℕ × ℚ) := l.foldr insertDesc []

/-- core/embeddings_retriever.py, `top_k`: k clamped to `[1, rowCount]`,
results ordered by descending score. -/
def top_k (rows : List (List ℚ)) (q : List ℚ) (k : ℕ) : List (ℕ × ℚ) :=
  let sims := rows.map (fun v => dotQ v q)
  let kk := max 1 (min k sims.length)
  (sortDesc (idxFrom 0 sims)).take kk

/-! ### core/pdf_text.py — greedy paragraph chunking -/

/-- The non-empty stripped lines of a page text
(`[p.strip() for p in text.split("\n") if p.strip()]`). -/
def parasOf (text : String) : List String :=
  ((pySplitNL text).map pyStrip).filter (fun p => p ≠ "")

/-- `"\n".join(buf)`. -/
def joinNL (buf : List String) : String := String.intercalate "\n" buf

/-- Length of `"\n".join(buf)` computed at the list level: sum of the line
lengths plus one per separator. -/
def joinLen : List String → ℕ
  | [] => 0
  | [p] => p.length
  | p :: q :: rest => p.length + 1 + joinLen (q :: rest)

/-- The loop of core/pdf_text.py `_greedy_para_split`, kept at the level of
line groups (the source joins each group with a newline as it closes it;
`joinNL` is applied to every group at the end here, same result).
State: remaining lines, closed groups, current group `buf`, running `size`. -/
def gLoop (maxChars : ℕ) : List String → List (List String) → List String → ℕ → List (List String)
  | [], gs, buf, _ => if buf = [] then gs else gs ++ [buf]
  | p :: rest, gs, buf, size =>
    if size + p.length + 1 > maxChars ∧ buf ≠ [] then
      gLoop maxChars rest (gs ++ [buf]) [p] p.length
    else
      gLoop maxChars rest gs (buf ++ [p]) (size + p.length + 1)

/-- core/pdf_text.py, `_greedy_para_split`. -/
def _greedy_para_split (text : String) (maxChars : ℕ) : List String :=
  let paras := parasOf text
  if paras = [] then [] else (gLoop maxChars paras [] [] 0).map joinNL

/-- Amended characterization of the split loop: the running counter is
replaced by the joined length of the current group, plus one extra while the
very first group is still being built (`gs = []`). -/
def gLoopA (maxChars : ℕ) : List String → List (List String) → List String → List (List String)
  | [], gs, buf => if buf = [] then gs else gs ++ [buf]
  | p :: rest, gs, buf =>
    if joinLen buf + p.length + 1 + (if gs = [] then 1 else 0) > maxChars ∧ buf ≠ [] then
      gLoopA maxChars rest (gs ++ [buf]) [p]
    else
      gLoopA maxChars rest gs (buf ++ [p])

/-- core/entities.py, `PdfChunk` (`section` rendered `sectionName`). -/
structure PdfChunk where
  page : ℕ
  sectionName : Option String := none
  paragraph : Option ℕ := none
  text : String
deriving DecidableEq, Repr

/-- The placeholder chunk of core/pdf_text.py `extract_pdf_chunks`. -/
def placeholderChunk : PdfChunk := { page := 1, sectionName := none, paragraph := none, text := "" }

/-- Chunks of one page, with 1-based paragraph ordinals starting at `j`. -/
def chunksOfParts (pg : ℕ) : ℕ → List String → List PdfChunk
  | _, [] => []
  | j, ch :: rest => { page := pg, sectionName := none, paragraph := some j, text := ch }
      :: chunksOfParts pg (j + 1) rest

/-- The page loop of core/pdf_text.py `extract_pdf_chunks`. -/
def extract_pdf_chunks_core (maxChars : ℕ) : List (ℕ × String) → List PdfChunk
  | [] => []
  | (pg, txt) :: rest =>
      chunksOfParts pg 1 (_greedy_para_split txt maxChars) ++ extract_pdf_chunks_core maxChars rest

/-- core/pdf_text.py, `extract_pdf_chunks`, taking the page list produced by
the (external) PyMuPDF extraction `extract_pages_texts` as input. -/
def extract_pdf_chunks (pages : List (ℕ × String)) (maxChars : ℕ) : List PdfChunk :=
  if pages = [] then [placeholderChunk]
  else
    let out := extract_pdf_chunks_core maxChars pages
    if out = [] then [placeholderChunk] else out

/-! ### repository/claim_buffer_repository.py — reading the Claim Buffer

Redis storage and pydantic JSON validation are external: a stored entry is
either `valid c` (it validates as the Claim `c`) or `malformed`. -/

/-- One raw entry of the Redis list backing the Claim Buffer. -/
inductive BufferEntry
  | valid (c : Claim)
  | malformed
deriving DecidableEq, Repr

/-- `ClaimBufferRepository.all`: validate each raw entry in list order,
silently skipping entries that fail to validate. -/
def bufferAll : List BufferEntry → List Claim
  | [] => []
  | .valid c :: rest => c :: bufferAll rest
  | .malformed :: rest => bufferAll rest

/-! ### core/anthropic_client.py — per-page extraction

`_post_json` raises for non-2xx (and transport/timeout errors) and returns
an empty dict when the response body fails to parse as JSON.
`ExtractOutcome.transportError` is the raising outcome;
`ExtractOutcome.response none` is any 2xx outcome whose body parse (or text
content extraction) yields no NDJSON lines; `ExtractOutcome.response (some
lines)` gives the per-line `json.loads` outcomes of the returned text. -/

/-- One NDJSON line of an extraction response, as seen after `json.loads`:
either it fails to parse (blank lines and code fences are also dropped,
folded into `malformed`), or it is an object with the fields the source
reads. -/
inductive RawLine
  | malformed
  | record (id : Option String) (text : String) (status : Option String)
deriving DecidableEq, Repr

/-- Outcome of one external extraction call. -/
inductive ExtractOutcome
  | transportError
  | response (lines : Option (List RawLine))
deriving DecidableEq, Repr

/-- A normalized claim dict as produced by `_parse_ndjson` /
`extract_claims_from_page` (status not yet validated against the enum). -/
structure RawClaim where
  id : String
  text : String
  status : String
deriving DecidableEq, Repr

/-- core/anthropic_client.py, `_parse_ndjson`: drop unparsable lines and
records with empty (stripped) text; default a falsy status to `uncited`. -/
def _parse_ndjson : List RawLine → List RawClaim
  | [] => []
  | .malformed :: rest => _parse_ndjson rest
  | .record id text status :: rest =>
    let txt := pyStrip text
    if txt = "" then _parse_ndjson rest
    else
      let st0 := status.getD ""
      { id := pyStrip (id.getD "")
        text := txt
        status := pyStrip (if st0 = "" then "uncited" else st0) } :: _parse_ndjson rest

/-- The 1-based id/status defaulting loop of `extract_claims_from_page`
(`enumerate(claims, start=1)`). -/
def synthIds (pn : ℕ) : ℕ → List RawClaim → List RawClaim
  | _, [] => []
  | i, c :: rest =>
    { id := if c.id = "" then "p" ++ toString pn ++ "_" ++ toString i else c.id
      text := c.text
      status := if c.status = "" then "uncited" else c.status } :: synthIds pn (i + 1) rest

/-- core/anthropic_client.py, `extract_claims_from_page`: raises on a
transport failure (`_post_json` re-raises for non-2xx); a body that fails
to parse yields an empty claim list. -/
def extract_claims_from_page (pn : ℕ) (o : ExtractOutcome) : Except Unit (List RawClaim) :=
  match o with
  | .transportError => .error ()
  | .response none => .ok []
  | .response (some lines) => .ok (synthIds pn 1 (_parse_ndjson lines))

/-! ### core/streaming.py and service/paper_service.py -/

/-- The claim-dict normalization of `make_live_stream._one_page`
(the `or`-defaults never fire after `extract_claims_from_page`, but are
modelled faithfully; the index is `len(out) + 1`). -/
def onePageAux (pn : ℕ) : ℕ → List RawClaim → List RawClaim
  | _, [] => []
  | n, c :: rest =>
    { id := if c.id = "" then "p" ++ toString pn ++ "_" ++ toString (n + 1) else c.id
      text := c.text
      status := if c.status = "" then "uncited" else c.status } :: onePageAux pn (n + 1) rest

/-- `_one_page`'s output claim dicts for one page. -/
def onePageClaims (pn : ℕ) (cs : List RawClaim) : List RawClaim := onePageAux pn 0 cs

/-- Pydantic validation of the `status` string in `Claim(**cdict)`. -/
def statusOfString : String → Option ClaimStatus
  | "cited" => some .cited
  | "uncited" => some .uncited
  | "weakly_cited" => some .weakly_cited
  | _ => none

/-- The `Claim(**cdict)` record built in `_one_page` / the consumer loop:
no verdict/confidence yet, empty suggestions, `sourceUploaded=False`. -/
def mkLiveClaim (c : RawClaim) (st : ClaimStatus) : Claim :=
  { id := c.id, text := c.text, status := st, verdict := none, confidence := none
    reasoningMd := none, suggestions := some [], sourceUploaded := false, evidence := none }

/-- The Verification Store for one job: association list claimId → record
(`VerificationRepository.get`). -/
def lookupV : List (String × VerifyClaimResponse) → String → Option VerifyClaimResponse
  | [], _ => none
  | (k, v) :: rest, cid => if k = cid then some v else lookupV rest cid

/-- The replay-side overlay in `PaperService.stream_claims`: look up a
persisted record for the claim id and merge it if present. -/
def overlayReplay (verifs : List (String × VerifyClaimResponse)) (c : Claim) : Claim :=
  match lookupV verifs c.id with
  | some saved => stream_merge_saved c saved
  | none => c

/-- core/streaming.py, `_merge_verification`: as `overlayReplay`, but an
empty claim id short-circuits without a store lookup. -/
def _merge_verification (verifs : List (String × VerifyClaimResponse)) (c : Claim) : Claim :=
  if c.id = "" then c else overlayReplay verifs c

/-- One NDJSON stream event (`ts` timestamps dropped: real time). -/
inductive Event
  | progress (phase : String) (processed : ℕ) (total : ℕ)
  | claim (payload : Claim)
  | error (message : String)
  | done
deriving DecidableEq, Repr

/-- A persisted phase-progress snapshot (`JobRepository.save_phase_progress`
overwrites; only the latest is retained; `ts` dropped). -/
structure PhaseSnap where
  phase : String
  processed : ℕ
  total : ℕ
deriving DecidableEq, Repr

/-- The progress event emitted alongside a persisted snapshot. -/
def progressEvent (s : PhaseSnap) : Event := .progress s.phase s.processed s.total

/-- The claim payloads of an event sequence, in order. -/
def claimPayloads (evs : List Event) : List Claim :=
  evs.filterMap (fun e => match e with | .claim p => some p | _ => none)

/-- Effects of processing one finished page's claims in the consumer loop of
`make_live_stream`: claim events, buffer appends, and whether `Claim(**cdict)`
raised (aborting the generator). -/
structure PageEmit where
  events : List Event
  appends : List Claim
  aborted : Bool
deriving DecidableEq, Repr

/-- The per-claim loop of `make_live_stream`: skip ids in the skip set
(before any append or event); otherwise validate (`Claim(**cdict)` — a raise
aborts), append to the buffer, overlay verification, emit the claim event. -/
def emitPageClaims (verifs : List (String × VerifyClaimResponse)) (skip : List String) :
    List RawClaim → PageEmit
  | [] => { events := [], appends := [], aborted := false }
  | c :: rest =>
    if c.id ∈ skip then emitPageClaims verifs skip rest
    else match statusOfString c.status with
      | none => { events := [], appends := [], aborted := true }
      | some st =>
        let cl := mkLiveClaim c st
        let r := emitPageClaims verifs skip rest
        { events := Event.claim (_merge_verification verifs cl) :: r.events
          appends := cl :: r.appends
          aborted := r.aborted }

/-- Effects of one run of `make_live_stream` (and, lifted, of
`PaperService.stream_claims`): emitted events, buffer appends, persisted
snapshots, whether status was set to finished, whether the generator raised
(the raising is converted to a final done at the stream boundary). -/
structure LiveResult where
  events : List Event
  appends : List Claim
  snaps : List PhaseSnap
  statusSet : Bool
  aborted : Bool
deriving DecidableEq, Repr

/-- The `as_completed` consumer loop of `make_live_stream`: per finished page
emit its surviving claims then persist+emit an extract progress snapshot;
after all pages persist the final snapshot, set status finished, emit done.
A raised exception (transport error of the page's call, or claim validation)
stops the generator at that point. -/
def liveLoop (verifs : List (String × VerifyClaimResponse)) (skip : List String)
    (total : ℕ) : ℕ → List (ℕ × ExtractOutcome) → LiveResult
  | _, [] =>
    { events := [Event.done], appends := [], snaps := [⟨"extract", total, total⟩]
      statusSet := true, aborted := false }
  | finished, (pn, o) :: rest =>
    match extract_claims_from_page pn o with
    | .error _ => { events := [], appends := [], snaps := [], statusSet := false, aborted := true }
    | .ok raw =>
      let pe := emitPageClaims verifs skip (onePageClaims pn raw)
      if pe.aborted then
        { events := pe.events, appends := pe.appends, snaps := [], statusSet := false, aborted := true }
      else
        let snap : PhaseSnap := ⟨"extract", finished + 1, total⟩
        let r := liveLoop verifs skip total (finished + 1) rest
        { events := pe.events ++ [progressEvent snap] ++ r.events
          appends := pe.appends ++ r.appends
          snaps := snap :: r.snaps
          statusSet := r.statusSet
          aborted := r.aborted }

/-- The parse-phase snapshots `0..total` (`range(total_pages + 1)`), built
with fuel `total + 1` starting at `i`. -/
def parseSnapsFrom (total i : ℕ) : ℕ → List PhaseSnap
  | 0 => []
  | fuel + 1 => ⟨"parse", i, total⟩ :: parseSnapsFrom total (i + 1) fuel

/-- All parse-phase snapshots of one run. -/
def parseSnaps (total : ℕ) : List PhaseSnap := parseSnapsFrom total 0 (total + 1)

/-- core/streaming.py, `make_live_stream`. -/
def make_live_stream (verifs : List (String × VerifyClaimResponse)) (skip : List String)
    (pages : List (ℕ × String)) (completions : List (ℕ × ExtractOutcome))
    (emitParse : Bool) : LiveResult :=
  let total := pages.length
  let base := liveLoop verifs skip total 0 completions
  let pre := if emitParse then parseSnaps total else []
  { base with
      events := pre.map progressEvent ++ base.events
      snaps := pre ++ base.snaps }

/-- model/job.py, `Job` (status kept as the stored string). -/
structure Job where
  id : String
  status : String
  processed : ℕ := 0
  total : ℕ := 0
deriving DecidableEq, Repr

/-- The state read by one `PaperService.stream_claims` call: job record,
latest progress snapshot, raw Claim Buffer entries, Verification Store,
blob/page-split outcome (`none`: blob missing or empty; `some []`: parsing
yielded no pages), and the completion-ordered external extraction outcomes
for the live phase. -/
structure StreamState where
  job : Option Job
  snap : Option PhaseSnap
  buffered : List BufferEntry
  verifs : List (String × VerifyClaimResponse)
  pdfPages : Option (List (ℕ × String))
  completions : List (ℕ × ExtractOutcome)
deriving DecidableEq, Repr

/-- Effects of one `stream_claims` call. -/
structure StreamResult where
  events : List Event
  appends : List Claim
  snaps : List PhaseSnap
  statusSet : Bool
  liveInvoked : Bool
deriving DecidableEq, Repr

/-- `ProgressPayload`'s literal phases (model/api.py). -/
def validPhases : List String := ["parse", "extract", "index", "verify"]

/-- The snapshot re-synchronization event: emitted when a snapshot exists
with positive total and it validates as a `ProgressPayload`. -/
def preEvents (s : StreamState) : List Event :=
  match s.snap with
  | some sn => if 0 < sn.total ∧ sn.phase ∈ validPhases then [progressEvent sn] else []
  | none => []

/-- The claims replayed from the buffer (malformed entries skipped). -/
def replayedClaims (s : StreamState) : List Claim := bufferAll s.buffered

/-- The replay claim events, each overlaid with any persisted verification. -/
def replayEvents (s : StreamState) : List Event :=
  (replayedClaims s).map (fun c => Event.claim (overlayReplay s.verifs c))

/-- `emit_parse = not (snap and snap.get("phase") == "extract")`. -/
def emitParseOf (s : StreamState) : Bool :=
  match s.snap with
  | some sn => sn.phase != "extract"
  | none => true

/-- The live-phase run delegated to `make_live_stream` on resume. -/
def liveOf (s : StreamState) (pages : List (ℕ × String)) : LiveResult :=
  make_live_stream s.verifs ((replayedClaims s).map (fun c => c.id)) pages
    s.completions (emitParseOf s)

/-- A terminating result that mutated nothing. -/
def doneResult (evs : List Event) : StreamResult :=
  { events := evs, appends := [], snaps := [], statusSet := false, liveInvoked := false }

/-- The events produced after the replay section (empty when the job is
unknown; the short-circuit/degraded branches contribute only `done`; the live
branch forwards `make_live_stream` with the boundary catch appending `done`
after an abort). -/
def liveEventsOf (s : StreamState) : List Event :=
  match s.job with
  | none => []
  | some job =>
    if pyLower job.status = "finished" then [Event.done]
    else match s.pdfPages with
      | none => [Event.done]
      | some [] => [Event.done]
      | some (pg :: pgs) =>
        let live := liveOf s (pg :: pgs)
        live.events ++ (if live.aborted then [Event.done] else [])

/-- service/paper_service.py, `PaperService.stream_claims`: unknown job →
error+done; otherwise snapshot re-sync, full replay with overlay, finished
short-circuit, degraded termination when the source bytes or pages are
missing, else continue live extraction skipping replayed ids. -/
def stream_claims (s : StreamState) : StreamResult :=
  match s.job with
  | none => doneResult [Event.error "Unknown or expired jobId", Event.done]
  | some job =>
    let pre := preEvents s
    let rev := replayEvents s
    if pyLower job.status = "finished" then
      doneResult (pre ++ rev ++ [Event.done])
    else match s.pdfPages with
      | none => doneResult (pre ++ rev ++ [Event.done])
      | some [] => doneResult (pre ++ rev ++ [Event.done])
      | some (pg :: pgs) =>
        let live := liveOf s (pg :: pgs)
        { events := pre ++ rev ++ live.events ++ (if live.aborted then [Event.done] else [])
          appends := live.appends
          snaps := live.snaps
          statusSet := live.statusSet
          liveInvoked := true }

/-- Serialization of an appended claim back into a buffer entry: the
pydantic `model_dump_json(exclude_none=True)` / `model_validate_json`
round trip restores the record, so an appended claim re-reads as itself. -/
def BufferEntry.ofClaim (c : Claim) : BufferEntry := .valid c

/-- The durable state visible to a later `stream_claims` call after one call
ran to completion: appends land at the end of the buffer, the last persisted
snapshot is retained, and the status becomes finished iff it was set. -/
def applyResult (s : StreamState) (r : StreamResult) : StreamState :=
  { s with
      buffered := s.buffered ++ r.appends.map BufferEntry.ofClaim
      snap := match r.snaps.getLast? with
        | some x => some x
        | none => s.snap
      job := if r.statusSet then s.job.map (fun j => { j with status := "finished" }) else s.job }

/-! ### core/verification_pipeline.py -/

/-- `_pack_for_prompt`: page-tagged excerpts of the non-blank chunks,
clipped to 140 words. -/
def _pack_for_prompt (chunks : List PdfChunk) : List String :=
  (chunks.filter (fun ch => pyStrip ch.text ≠ "")).map
    (fun ch => "[page " ++ toString ch.page ++ "]\n" ++ clip_words ch.text 140)

/-- `_evidence_for_api`: API-facing evidence items of the non-blank chunks,
clipped to 100 words. -/
def _evidence_for_api (chunks : List PdfChunk) : List Evidence :=
  (chunks.filter (fun ch => pyStrip ch.text ≠ "")).map
    (fun ch => { paperTitle := none, page := some (ch.page : Int), sectionName := ch.sectionName
                 paragraph := ch.paragraph.map Int.ofNat, excerpt := some (clip_words ch.text 100) })

/-- core/verification_pipeline.py, `verify_claim_against_pdf`, parametrized
by the external encoder `enc` (encode + L2-normalize of the sentence
transformer) and the verifier response parse outcome `vo`. -/
def verify_claim_against_pdf (pages : List (ℕ × String)) (enc : String → List ℚ)
    (claimText : String) (vo : VerifierParse) (k : ℕ) : VerifyResult × List Evidence :=
  let chunks := extract_pdf_chunks pages 1400
  let texts0 := chunks.map (fun c => c.text)
  let texts := if texts0 = [] then [""] else texts0
  let hits := top_k (texts.map enc) (enc claimText) (min k texts.length)
  let top := hits.filterMap (fun it => chunks.get? it.1)
  let v := anthropic_verify vo
  (v, _evidence_for_api top)

/-! ### Predicates and concrete scenarios used by the verification theorems -/

/-- Adjacent-pair check on a snapshot list: non-decreasing `processed` and
constant `total`. -/
def monoTotalsOk : List PhaseSnap → Bool
  | [] => true
  | [_] => true
  | a :: b :: rest =>
      decide (a.processed ≤ b.processed) && decide (a.total = b.total) && monoTotalsOk (b :: rest)

/-- The snapshots of one phase, in persistence order. -/
def snapsForPhase (ph : String) (l : List PhaseSnap) : List PhaseSnap :=
  l.filter (fun sn => sn.phase == ph)

/-- Adjacent-pair strict descent of scores. -/
def strictDescScores : List (ℕ × ℚ) → Bool
  | [] => true
  | [_] => true
  | a :: b :: rest => decide (b.2 < a.2) && strictDescScores (b :: rest)

/-- The durable state after a client disconnect that interrupted a run once
`k` snapshots were persisted: the job record keeps its status (the final
status write happens only at the very end of the run) and the snapshot store
holds the `k`-th snapshot.  Used for runs that appended no claims. -/
def disconnectAfter (s : StreamState) (k : ℕ) : StreamState :=
  { s with snap := match ((stream_claims s).snaps.take k).getLast? with
      | some x => some x
      | none => s.snap }

/-- A two-page job mid-extraction whose pages both extract zero claims. -/
def c3Run : StreamState :=
  { job := some { id := "job-c3", status := "streaming" }
    snap := none
    buffered := []
    verifs := []
    pdfPages := some [(1, "a"), (2, "b")]
    completions := [(1, .response (some [])), (2, .response (some []))] }

/-- Completion order in which page 1's external call fails in transport and
page 2's call returns one claim. -/
def c1Completions : List (ℕ × ExtractOutcome) :=
  [(1, .transportError),
   (2, .response (some [.record (some "x1") "A sibling claim." (some "cited")]))]

/-- The live run over `c1Completions`. -/
def c1Live : LiveResult := make_live_stream [] [] [(1, "a"), (2, "b")] c1Completions true

/-- A buffered claim used by the concrete scenarios. -/
def wClaim : Claim := { id := "a", text := "Some claim text.", status := .cited }

/-- A finished job holding one buffered claim. -/
def c2State : StreamState :=
  { job := some { id := "job-c2", status := "finished" }
    snap := some ⟨"extract", 1, 1⟩
    buffered := [.valid wClaim]
    verifs := []
    pdfPages := some [(1, "x")]
    completions := [] }

/-- An in-progress job with one replayed claim whose id the extractor
regenerates on page 1. -/
def c4State : StreamState :=
  { job := some { id := "job-c4", status := "streaming" }
    snap := none
    buffered := [.valid wClaim]
    verifs := []
    pdfPages := some [(1, "x")]
    completions := [(1, .response (some [.record (some "a") "Regenerated." (some "cited")]))] }

/-- A persisted verification record for claim id `a`. -/
def c5Rec : VerifyClaimResponse :=
  { claimId := "a", verdict := .supported, confidence := 1
    reasoningMd := "Well supported.", evidence := some [{ page := some 1 }] }

/-- A finished job with one buffered claim and a persisted verification. -/
def c5State : StreamState :=
  { job := some { id := "job-c5", status := "finished" }
    snap := none
    buffered := [.valid wClaim]
    verifs := [("a", c5Rec)]
    pdfPages := none
    completions := [] }

/-- The payload the replay of `c5State` emits for claim `a`. -/
def c5Payload : Claim := stream_merge_saved wClaim c5Rec

/-! ## Helper lemmas and claim theorems -/

/-- Shared: coercion of an arbitrary verdict string into the allowed set. -/
lemma coerce_verdict_mem (v0 : String) :
    (if v0 ∈ allowedVerdicts then v0 else "unsupported") ∈ allowedVerdicts := by
  by_cases h : v0 ∈ allowedVerdicts
  · simp [h]
  · simp only [h, if_false]
    simp [allowedVerdicts]

/-- Shared: the normalized verifier verdict is always one of the three
allowed strings. -/
lemma anthropic_verify_verdict_mem (vo : VerifierParse) :
    (anthropic_verify vo).verdict ∈ allowedVerdicts :=
  coerce_verdict_mem _

/-- Shared: the normalized verifier confidence is clamped into `[0, 1]`. -/
lemma anthropic_verify_conf_bounds (vo : VerifierParse) :
    0 ≤ (anthropic_verify vo).confidence ∧ (anthropic_verify vo).confidence ≤ 1 :=
  ⟨le_max_left 0 _, max_le (by norm_num) (min_le_left 1 _)⟩

/-- C10: reading the Claim Buffer returns exactly the entries that validate
as Claim records, in their original append order; a malformed entry is
silently skipped, reducing the replayed count without affecting the rest. -/
theorem buffer_read_skips_malformed (entries : List BufferEntry) :
    bufferAll entries
      = entries.filterMap (fun e => match e with | .valid c => some c | .malformed => none) ∧
    (bufferAll entries).length
      = entries.countP (fun e => match e with | .valid _ => true | .malformed => false) ∧
    (∀ pre post : List BufferEntry,
        bufferAll (pre ++ BufferEntry.malformed :: post) = bufferAll (pre ++ post)) := by
  refine ⟨?_, ?_, ?_⟩
  · induction entries with
    | nil => rfl
    | cons e rest ih => cases e <;> simp [bufferAll, ih]
  · induction entries with
    | nil => rfl
    | cons e rest ih => cases e <;> simp [bufferAll, ih, List.countP_cons]
  · intro pre post
    induction pre with
    | nil => rfl
    | cons e rest ih => cases e <;> simp [bufferAll, ih]

/-- C6 counterexample: on a verifier parse failure, the returned reasoning
is the string with a trailing period, not the claimed literal. -/
theorem verify_default_cex :
    (anthropic_verify VerifierParse.failure).reasoning_md = "Unable to parse verifier output." ∧
    "Unable to parse verifier output." ≠ "Unable to parse verifier output" := by
  exact ⟨rfl, by decide⟩

/-- C6 (amended): a verifier response text that fails to parse as JSON
(after the code-fence stripping) yields verdict `unsupported`, confidence
`1/2` and the reasoning "Unable to parse verifier output." — with a trailing
period — without raising; for every response, a verdict outside the allowed
set is coerced to `unsupported` and the returned confidence lies in
`[0, 1]`. -/
theorem verify_normalization_amended :
    (anthropic_verify VerifierParse.failure).verdict = "unsupported" ∧
    (anthropic_verify VerifierParse.failure).confidence = 1/2 ∧
    (anthropic_verify VerifierParse.failure).reasoning_md = "Unable to parse verifier output." ∧
    (∀ vo : VerifierParse, (anthropic_verify vo).verdict ∈ allowedVerdicts ∧
      0 ≤ (anthropic_verify vo).confidence ∧ (anthropic_verify vo).confidence ≤ 1) := by
  refine ⟨rfl, ?_, rfl, fun vo => ⟨anthropic_verify_verdict_mem vo,
    (anthropic_verify_conf_bounds vo).1, (anthropic_verify_conf_bounds vo).2⟩⟩
  show max 0 (min 1 (1/2 : ℚ)) = 1/2
  norm_num

/-- `joinLen` under appending one more line to a non-empty group. -/
lemma joinLen_append_singleton (buf : List String) (p : String) (h : buf ≠ []) :
    joinLen (buf ++ [p]) = joinLen buf + 1 + p.length := by
  induction buf with
  | nil => exact absurd rfl h
  | cons a l ih =>
    cases l with
    | nil => simp [joinLen]
    | cons b m =>
      have h2 := ih (by simp)
      simp only [List.cons_append] at h2 ⊢
      simp only [joinLen]
      omega

/-- The closed groups of `gLoop` concatenate to the input lines: no line is
ever split or reordered. -/
lemma gLoop_join (maxChars : ℕ) :
    ∀ (paras : List String) (gs : List (List String)) (buf : List String) (size : ℕ),
      (gLoop maxChars paras gs buf size).flatten = gs.flatten ++ buf ++ paras := by
  intro paras
  induction paras with
  | nil =>
    intro gs buf size
    by_cases h : buf = [] <;> simp [gLoop, h]
  | cons p rest ih =>
    intro gs buf size
    by_cases h : size + p.length + 1 > maxChars ∧ buf ≠ []
    · simp only [gLoop, if_pos h, ih]
      simp
    · simp only [gLoop, if_neg h, ih]
      simp

/-- The loop invariant tying the source's running `size` counter to the
joined length of the open group: one extra unit while the first group is
still being built. -/
def gInv (gs : List (List String)) (buf : List String) (size : ℕ) : Prop :=
  (buf = [] ∧ size = 0 ∧ gs = []) ∨
  (buf ≠ [] ∧ size = joinLen buf + (if gs = [] then 1 else 0))

/-- Under the invariant, the source loop agrees with the joined-length
characterization. -/
lemma gLoop_eq_gLoopA (maxChars : ℕ) :
    ∀ (paras : List String) (gs : List (List String)) (buf : List String) (size : ℕ),
      gInv gs buf size →
      gLoop maxChars paras gs buf size = gLoopA maxChars paras gs buf := by
  intro paras
  induction paras with
  | nil => intro gs buf size hinv; rfl
  | cons p rest ih =>
    intro gs buf size hinv
    rcases hinv with ⟨hb, hs, hg⟩ | ⟨hb, hs⟩
    · subst hb; subst hs; subst hg
      have hc : ¬(0 + p.length + 1 > maxChars ∧ ([] : List String) ≠ []) := by simp
      have hc' : ¬(joinLen [] + p.length + 1 + (if ([] : List (List String)) = [] then 1 else 0) > maxChars
          ∧ ([] : List String) ≠ []) := by simp
      rw [gLoop, if_neg hc, gLoopA, if_neg hc']
      exact ih [] [p] (0 + p.length + 1) (Or.inr ⟨by simp, by simp [joinLen]⟩)
    · have hiff : (size + p.length + 1 > maxChars ∧ buf ≠ []) ↔
          (joinLen buf + p.length + 1 + (if gs = [] then 1 else 0) > maxChars ∧ buf ≠ []) := by
        constructor
        · rintro ⟨h1, h2⟩; exact ⟨by omega, h2⟩
        · rintro ⟨h1, h2⟩; exact ⟨by omega, h2⟩
      by_cases hc : joinLen buf + p.length + 1 + (if gs = [] then 1 else 0) > maxChars ∧ buf ≠ []
      · rw [gLoop, if_pos (hiff.mpr hc), gLoopA, if_pos hc]
        refine ih (gs ++ [buf]) [p] p.length (Or.inr ⟨by simp, ?_⟩)
        have : gs ++ [buf] ≠ [] := by simp
        simp [joinLen, this]
      · rw [gLoop, if_neg (fun hx => hc (hiff.mp hx)), gLoopA, if_neg hc]
        refine ih gs (buf ++ [p]) (size + p.length + 1) (Or.inr ⟨by simp [hb], ?_⟩)
        rw [joinLen_append_singleton buf p hb]
        omega

/-- C9 counterexample: with `maxChars = 5` the two lines `ab` and `cd` are
split into separate chunks although the joined chunk `ab\ncd` has length 5
and would not exceed the budget — the claimed split condition is violated at
the boundary for the first chunk. -/
theorem greedy_split_cex :
    _greedy_para_split "ab\ncd" 5 = ["ab", "cd"] ∧
    parasOf "ab\ncd" = ["ab", "cd"] ∧
    (joinNL ["ab", "cd"]).length ≤ 5 := by
  refine ⟨by decide, by decide, by decide⟩

/-- C9 (amended): chunking greedily groups consecutive non-empty stripped
lines in document order and never splits a line (the closed groups
concatenate back to exactly the input lines); a new chunk is started exactly
when the joined length of the current chunk plus one plus the next line's
length — plus one extra unit while the first chunk of the text is being
built — exceeds `maxChars`.  (So the first chunk closes already when the
joined chunk would merely reach `maxChars`; later chunks only when it would
exceed it.) -/
theorem greedy_split_amended (text : String) (maxChars : ℕ) :
    _greedy_para_split text maxChars = (gLoop maxChars (parasOf text) [] [] 0).map joinNL ∧
    (gLoop maxChars (parasOf text) [] [] 0).flatten = parasOf text ∧
    gLoop maxChars (parasOf text) [] [] 0 = gLoopA maxChars (parasOf text) [] [] := by
  refine ⟨?_, ?_, ?_⟩
  · unfold _greedy_para_split
    by_cases h : parasOf text = []
    · simp [h, gLoop]
    · simp [h]
  · simpa using gLoop_join maxChars (parasOf text) [] [] 0
  · exact gLoop_eq_gLoopA maxChars (parasOf text) [] [] 0 (Or.inl ⟨rfl, rfl, rfl⟩)

/-- Insertion grows the length by one. -/
lemma length_insertDesc (x : ℕ × ℚ) (l : List (ℕ × ℚ)) :
    (insertDesc x l).length = l.length + 1 := by
  induction l with
  | nil => rfl
  | cons y ys ih =>
    by_cases h : y.2 ≤ x.2 <;> simp [insertDesc, h, ih]

/-- Sorting preserves the length. -/
lemma length_sortDesc (l : List (ℕ × ℚ)) : (sortDesc l).length = l.length := by
  induction l with
  | nil => rfl
  | cons x xs ih =>
    unfold sortDesc at ih ⊢
    simp [List.foldr_cons, length_insertDesc, ih]

/-- `idxFrom` preserves the length. -/
lemma length_idxFrom (n : ℕ) (l : List ℚ) : (idxFrom n l).length = l.length := by
  induction l generalizing n with
  | nil => rfl
  | cons x xs ih => simp [idxFrom, ih]

/-- Members of an insertion come from the inserted element or the list. -/
lemma mem_insertDesc {a x : ℕ × ℚ} :
    ∀ {l : List (ℕ × ℚ)}, a ∈ insertDesc x l → a = x ∨ a ∈ l := by
  intro l
  induction l with
  | nil => intro h; simpa [insertDesc] using h
  | cons y ys ih =>
    intro h
    by_cases hc : y.2 ≤ x.2
    · simp only [insertDesc, if_pos hc, List.mem_cons] at h
      rcases h with h | h | h
      · exact Or.inl h
      · exact Or.inr (by simp [h])
      · exact Or.inr (by simp [h])
    · simp only [insertDesc, if_neg hc, List.mem_cons] at h
      rcases h with h | h
      · exact Or.inr (by simp [h])
      · rcases ih h with h' | h'
        · exact Or.inl h'
        · exact Or.inr (by simp [h'])

/-- Members of the sort come from the list. -/
lemma mem_sortDesc {a : ℕ × ℚ} : ∀ {l : List (ℕ × ℚ)}, a ∈ sortDesc l → a ∈ l := by
  intro l
  induction l with
  | nil => intro h; simp [sortDesc] at h
  | cons x xs ih =>
    intro h
    have h1 : a ∈ insertDesc x (sortDesc xs) := by
      simpa [sortDesc] using h
    rcases mem_insertDesc h1 with h' | h'
    · simp [h']
    · exact List.mem_cons_of_mem x (ih h')

/-- A member of `idxFrom n l` is a valid position/value pair. -/
lemma mem_idxFrom {l : List ℚ} :
    ∀ {n i : ℕ} {s : ℚ}, (i, s) ∈ idxFrom n l → ∃ j, i = n + j ∧ l.get? j = some s := by
  induction l with
  | nil => intro n i s h; simp [idxFrom] at h
  | cons x xs ih =>
    intro n i s h
    simp only [idxFrom, List.mem_cons] at h
    rcases h with h | h
    · exact ⟨0, by simp [Prod.ext_iff] at h; simp [h.1, h.2]⟩
    · obtain ⟨j, hj, hg⟩ := ih h
      exact ⟨j + 1, by omega, by simpa using hg⟩

/-- Insertion into a descending list stays descending. -/
lemma pairwise_insertDesc (x : ℕ × ℚ) (l : List (ℕ × ℚ))
    (hl : l.Pairwise (fun a b => b.2 ≤ a.2)) :
    (insertDesc x l).Pairwise (fun a b => b.2 ≤ a.2) := by
  induction l with
  | nil => simp [insertDesc]
  | cons y ys ih =>
    rcases List.pairwise_cons.mp hl with ⟨hy, hys⟩
    by_cases hc : y.2 ≤ x.2
    · simp only [insertDesc, if_pos hc]
      refine List.pairwise_cons.mpr ⟨?_, hl⟩
      intro z hz
      rcases hz with _ | hz
      · exact hc
      · exact le_trans (hy z (by assumption)) hc
    · simp only [insertDesc, if_neg hc]
      refine List.pairwise_cons.mpr ⟨?_, ih hys⟩
      intro z hz
      rcases mem_insertDesc hz with h' | h'
      · subst h'; exact le_of_lt (lt_of_not_le hc)
      · exact hy z h'

/-- The sort is descending by score. -/
lemma pairwise_sortDesc (l : List (ℕ × ℚ)) :
    (sortDesc l).Pairwise (fun a b => b.2 ≤ a.2) := by
  induction l with
  | nil => simp [sortDesc]
  | cons x xs ih =>
    have : sortDesc (x :: xs) = insertDesc x (sortDesc xs) := rfl
    rw [this]
    exact pairwise_insertDesc x (sortDesc xs) ih

/-- C8 counterexample: two identical unit rows tie, so the returned scores
are not strictly descending (the first conjunct pins down the exact
output). -/
theorem top_k_strict_cex :
    top_k [[(1 : ℚ)], [1]] [1] 2 = [(0, 1), (1, 1)] ∧
    strictDescScores (top_k [[(1 : ℚ)], [1]] [1] 2) = false := by
  have h : top_k [[(1 : ℚ)], [1]] [1] 2 = [(0, 1), (1, 1)] := by
    simp [top_k, dotQ, idxFrom, sortDesc, insertDesc]
  exact ⟨h, by rw [h]; simp [strictDescScores]⟩

/-- C8 (amended): for an index of `n ≥ 1` rows, `top_k` returns exactly
`max 1 (min k n)` results — `min (k, n)` once `k ≥ 1` — ordered by
non-increasing (not necessarily strictly descending) score, and every
returned score is the dot product of the addressed row vector with the
query (rows and query being the externally normalized embeddings). -/
theorem top_k_amended (rows : List (List ℚ)) (q : List ℚ) (k : ℕ)
    (hn : 1 ≤ rows.length) :
    (top_k rows q k).length = max 1 (min k rows.length) ∧
    (top_k rows q k).Pairwise (fun a b => b.2 ≤ a.2) ∧
    (∀ pr ∈ top_k rows q k, ∃ v, rows.get? pr.1 = some v ∧ pr.2 = dotQ v q) := by
  have hlen : (rows.map (fun v => dotQ v q)).length = rows.length := List.length_map _ _
  refine ⟨?_, ?_, ?_⟩
  · show ((sortDesc (idxFrom 0 (rows.map (fun v => dotQ v q)))).take
      (max 1 (min k (rows.map (fun v => dotQ v q)).length))).length = _
    rw [List.length_take, length_sortDesc, length_idxFrom, hlen]
    have : max 1 (min k rows.length) ≤ rows.length :=
      max_le hn (min_le_right k rows.length)
    omega
  · exact (pairwise_sortDesc _).sublist (List.take_sublist _ _)
  · intro pr hpr
    have h1 : pr ∈ sortDesc (idxFrom 0 (rows.map (fun v => dotQ v q))) :=
      List.mem_of_mem_take hpr
    have h2 : pr ∈ idxFrom 0 (rows.map (fun v => dotQ v q)) := mem_sortDesc h1
    obtain ⟨j, hj, hg⟩ := mem_idxFrom (l := rows.map (fun v => dotQ v q))
      (n := 0) (i := pr.1) (s := pr.2) (by simpa using h2)
    rw [List.get?_map] at hg
    rcases hv : rows.get? j with _ | v
    · rw [hv] at hg; simp at hg
    · rw [hv] at hg
      simp only [Option.map_some', Option.some.injEq] at hg
      exact ⟨v, by rw [hj]; simpa using hv, hg.symm⟩

/-- C8 witness: concrete instantiation of the amended top-k theorem. -/
theorem top_k_amended_w :
    (top_k [[(1 : ℚ)], [1]] [1] 1).length = max 1 (min 1 [[(1 : ℚ)], [1]].length) :=
  (top_k_amended [[(1 : ℚ)], [1]] [1] 1 (by decide)).1

/-- If every page's split is empty, the page loop produces no chunks. -/
lemma extract_pdf_chunks_core_nil (maxChars : ℕ) :
    ∀ pages : List (ℕ × String), (∀ pt ∈ pages, _greedy_para_split pt.2 maxChars = []) →
      extract_pdf_chunks_core maxChars pages = [] := by
  intro pages
  induction pages with
  | nil => intro h; rfl
  | cons pt rest ih =>
    intro h
    obtain ⟨pg, txt⟩ := pt
    have h1 : _greedy_para_split txt maxChars = [] := h (pg, txt) (by simp)
    simp only [extract_pdf_chunks_core, h1, chunksOfParts, List.nil_append]
    exact ih (fun q hq => h q (by simp [hq]))

/-- C7: an input whose pages all chunk to nothing (including no pages at
all) yields exactly the single placeholder chunk (page 1, empty text); the
chunker never returns an empty list, and the verification pipeline run on
such an input still returns an allowed verdict with an empty evidence list,
for every encoder, claim text, verifier outcome and k. -/
theorem zero_chunk_placeholder (pages : List (ℕ × String))
    (hz : ∀ pt ∈ pages, _greedy_para_split pt.2 1400 = []) :
    extract_pdf_chunks pages 1400 = [placeholderChunk] ∧
    (∀ (ps : List (ℕ × String)) (mc : ℕ), extract_pdf_chunks ps mc ≠ []) ∧
    (∀ (enc : String → List ℚ) (claimText : String) (vo : VerifierParse) (k : ℕ),
        (verify_claim_against_pdf pages enc claimText vo k).1.verdict ∈ allowedVerdicts ∧
        (verify_claim_against_pdf pages enc claimText vo k).2 = []) := by
  have hchunks : extract_pdf_chunks pages 1400 = [placeholderChunk] := by
    unfold extract_pdf_chunks
    by_cases hp : pages = []
    · simp [hp]
    · simp [hp, extract_pdf_chunks_core_nil 1400 pages hz]
  refine ⟨hchunks, ?_, ?_⟩
  · intro ps mc
    unfold extract_pdf_chunks
    by_cases hp : ps = []
    · simp [hp]
    · by_cases ho : extract_pdf_chunks_core mc ps = []
      · simp [hp, ho]
      · simp [hp, ho]
  · intro enc claimText vo k
    constructor
    · exact anthropic_verify_verdict_mem vo
    · show (_evidence_for_api _) = []
      simp only [verify_claim_against_pdf, hchunks]
      have hm : List.map (fun c : PdfChunk => c.text) [placeholderChunk] = [""] := rfl
      rw [hm]
      simp only [top_k, ite_self, List.map_cons, List.map_nil, List.length_cons,
        List.length_nil]
      have h2 : max 1 (min (min k (0 + 1)) (0 + 1)) = 1 := by omega
      rw [h2]
      simp only [idxFrom, sortDesc, List.foldr_cons, List.foldr_nil, insertDesc,
        List.take_succ_cons, List.take_zero, List.filterMap_cons, List.filterMap_nil]
      rfl

/-- C7 witness: a one-page document holding only whitespace chunks to the
single placeholder. -/
theorem zero_chunk_placeholder_w :
    extract_pdf_chunks [(1, " \n ")] 1400 = [placeholderChunk] :=
  (zero_chunk_placeholder [(1, " \n ")] (by decide)).1

/-! ### Lemmas on the live streaming loop -/

/-- Overlay functions never change the claim id. -/
lemma overlayReplay_id (v : List (String × VerifyClaimResponse)) (c : Claim) :
    (overlayReplay v c).id = c.id := by
  unfold overlayReplay
  cases lookupV v c.id <;> rfl

/-- `_merge_verification` never changes the claim id. -/
lemma merge_verification_id (v : List (String × VerifyClaimResponse)) (c : Claim) :
    (_merge_verification v c).id = c.id := by
  unfold _merge_verification
  by_cases h : c.id = ""
  · simp [h]
  · simp [h, overlayReplay_id]

/-- A string starting with `p` is non-empty. -/
lemma p_append_ne_empty (t : String) : ("p" ++ t) ≠ "" := by
  intro h
  have h1 := congrArg String.length h
  rw [String.length_append] at h1
  have h2 : ("p" : String).length = 1 := rfl
  have h3 : ("" : String).length = 0 := rfl
  omega

/-- Every claim dict produced by `_one_page` carries a non-empty id. -/
lemma onePageAux_id_ne (pn : ℕ) :
    ∀ (cs : List RawClaim) (n : ℕ), ∀ c ∈ onePageAux pn n cs, c.id ≠ "" := by
  intro cs
  induction cs with
  | nil => intro n c hc; simp [onePageAux] at hc
  | cons d rest ih =>
    intro n c hc
    simp only [onePageAux, List.mem_cons] at hc
    rcases hc with hc | hc
    · subst hc
      by_cases hid : d.id = ""
      · simpa [hid] using p_append_ne_empty _
      · simp only [hid, if_neg hid]
        exact hid
    · exact ih (n + 1) c hc

/-- Characterization of the claim events of one page's emission loop: each
comes from an input claim dict whose id survived the skip set, overlaid via
`_merge_verification`. -/
lemma emitPageClaims_events_mem (verifs : List (String × VerifyClaimResponse))
    (skip : List String) :
    ∀ (cs : List RawClaim) (p : Claim),
      Event.claim p ∈ (emitPageClaims verifs skip cs).events →
      ∃ c ∈ cs, ∃ st, statusOfString c.status = some st ∧ c.id ∉ skip ∧
        p = _merge_verification verifs (mkLiveClaim c st) := by
  intro cs
  induction cs with
  | nil => intro p hp; simp [emitPageClaims] at hp
  | cons c rest ih =>
    intro p hp
    by_cases hskip : c.id ∈ skip
    · simp only [emitPageClaims, if_pos hskip] at hp
      obtain ⟨c', hc', hrest⟩ := ih p hp
      exact ⟨c', List.mem_cons_of_mem c hc', hrest⟩
    · rcases hst : statusOfString c.status with _ | st
      · simp only [emitPageClaims, if_neg hskip, hst] at hp
        simp at hp
      · simp only [emitPageClaims, if_neg hskip, hst, List.mem_cons] at hp
        rcases hp with hp | hp
        · exact ⟨c, by simp, st, hst, hskip, by injection hp⟩
        · obtain ⟨c', hc', hrest⟩ := ih p hp
          exact ⟨c', List.mem_cons_of_mem c hc', hrest⟩

/-- Characterization of the buffer appends of one page's emission loop. -/
lemma emitPageClaims_appends_mem (verifs : List (String × VerifyClaimResponse))
    (skip : List String) :
    ∀ (cs : List RawClaim) (cl : Claim),
      cl ∈ (emitPageClaims verifs skip cs).appends →
      ∃ c ∈ cs, ∃ st, statusOfString c.status = some st ∧ c.id ∉ skip ∧
        cl = mkLiveClaim c st := by
  intro cs
  induction cs with
  | nil => intro cl hcl; simp [emitPageClaims] at hcl
  | cons c rest ih =>
    intro cl hcl
    by_cases hskip : c.id ∈ skip
    · simp only [emitPageClaims, if_pos hskip] at hcl
      obtain ⟨c', hc', hrest⟩ := ih cl hcl
      exact ⟨c', List.mem_cons_of_mem c hc', hrest⟩
    · rcases hst : statusOfString c.status with _ | st
      · simp only [emitPageClaims, if_neg hskip, hst] at hcl
        simp at hcl
      · simp only [emitPageClaims, if_neg hskip, hst, List.mem_cons] at hcl
        rcases hcl with hcl | hcl
        · exact ⟨c, by simp, st, hst, hskip, hcl⟩
        · obtain ⟨c', hc', hrest⟩ := ih cl hcl
          exact ⟨c', List.mem_cons_of_mem c hc', hrest⟩

/-- Characterization of the claim events of the live consumer loop: every
one is an overlaid `_one_page` claim dict whose non-empty id survived the
skip set. -/
lemma liveLoop_claims (verifs : List (String × VerifyClaimResponse)) (skip : List String)
    (total : ℕ) :
    ∀ (comps : List (ℕ × ExtractOutcome)) (f : ℕ) (p : Claim),
      Event.claim p ∈ (liveLoop verifs skip total f comps).events →
      ∃ c : RawClaim, ∃ st, c.id ≠ "" ∧ c.id ∉ skip ∧ statusOfString c.status = some st ∧
        p = _merge_verification verifs (mkLiveClaim c st) := by
  intro comps
  induction comps with
  | nil => intro f p hp; simp [liveLoop] at hp
  | cons po rest ih =>
    intro f p hp
    obtain ⟨pn, o⟩ := po
    rcases ho : extract_claims_from_page pn o with e | raw
    · simp [liveLoop, ho] at hp
    · by_cases hab : (emitPageClaims verifs skip (onePageClaims pn raw)).aborted
      · simp only [liveLoop, ho, hab, if_true] at hp
        obtain ⟨c, hc, st, hst, hskip, hpe⟩ := emitPageClaims_events_mem verifs skip _ p hp
        exact ⟨c, st, onePageAux_id_ne pn _ 0 c hc, hskip, hst, hpe⟩
      · simp only [liveLoop, ho, hab, Bool.false_eq_true, if_false, List.append_assoc,
          List.mem_append, List.mem_singleton, progressEvent] at hp
        rcases hp with hp | hp | hp
        · obtain ⟨c, hc, st, hst, hskip, hpe⟩ := emitPageClaims_events_mem verifs skip _ p hp
          exact ⟨c, st, onePageAux_id_ne pn _ 0 c hc, hskip, hst, hpe⟩
        · simp at hp
        · exact ih (f + 1) p hp

/-- Characterization of the buffer appends of the live consumer loop. -/
lemma liveLoop_appends (verifs : List (String × VerifyClaimResponse)) (skip : List String)
    (total : ℕ) :
    ∀ (comps : List (ℕ × ExtractOutcome)) (f : ℕ) (cl : Claim),
      cl ∈ (liveLoop verifs skip total f comps).appends →
      ∃ c : RawClaim, ∃ st, c.id ≠ "" ∧ c.id ∉ skip ∧ statusOfString c.status = some st ∧
        cl = mkLiveClaim c st := by
  intro comps
  induction comps with
  | nil => intro f cl hcl; simp [liveLoop] at hcl
  | cons po rest ih =>
    intro f cl hcl
    obtain ⟨pn, o⟩ := po
    rcases ho : extract_claims_from_page pn o with e | raw
    · simp [liveLoop, ho] at hcl
    · by_cases hab : (emitPageClaims verifs skip (onePageClaims pn raw)).aborted
      · simp only [liveLoop, ho, hab, if_true] at hcl
        obtain ⟨c, hc, st, hst, hskip, hpe⟩ := emitPageClaims_appends_mem verifs skip _ cl hcl
        exact ⟨c, st, onePageAux_id_ne pn _ 0 c hc, hskip, hst, hpe⟩
      · simp only [liveLoop, ho, hab, Bool.false_eq_true, if_false, List.mem_append] at hcl
        rcases hcl with hcl | hcl
        · obtain ⟨c, hc, st, hst, hskip, hpe⟩ := emitPageClaims_appends_mem verifs skip _ cl hcl
          exact ⟨c, st, onePageAux_id_ne pn _ 0 c hc, hskip, hst, hpe⟩
        · exact ih (f + 1) cl hcl

/-- A live run that did not abort ends with exactly one terminal done. -/
lemma liveLoop_done (verifs : List (String × VerifyClaimResponse)) (skip : List String)
    (total : ℕ) :
    ∀ (comps : List (ℕ × ExtractOutcome)) (f : ℕ),
      (liveLoop verifs skip total f comps).aborted = false →
      ∃ l, (liveLoop verifs skip total f comps).events = l ++ [Event.done] := by
  intro comps
  induction comps with
  | nil => intro f _; exact ⟨[], rfl⟩
  | cons po rest ih =>
    intro f hna
    obtain ⟨pn, o⟩ := po
    rcases ho : extract_claims_from_page pn o with e | raw
    · simp [liveLoop, ho] at hna
    · by_cases hab : (emitPageClaims verifs skip (onePageClaims pn raw)).aborted
      · simp [liveLoop, ho, hab] at hna
      · simp only [liveLoop, ho, hab, Bool.false_eq_true, if_false] at hna ⊢
        obtain ⟨l, hl⟩ := ih (f + 1) hna
        exact ⟨(emitPageClaims verifs skip (onePageClaims pn raw)).events ++
          [progressEvent ⟨"extract", f + 1, total⟩] ++ l, by
            simp only [hl, List.append_assoc]⟩

/-- Extending a monotone snapshot list with a lower bound at the head. -/
lemma monoTotalsOk_cons (a : PhaseSnap) (l : List PhaseSnap)
    (hl : monoTotalsOk l = true)
    (h : ∀ b ∈ l, a.processed ≤ b.processed ∧ a.total = b.total) :
    monoTotalsOk (a :: l) = true := by
  cases l with
  | nil => rfl
  | cons b m =>
    have hb := h b (by simp)
    simp only [monoTotalsOk, Bool.and_eq_true, decide_eq_true_eq]
    exact ⟨⟨hb.1, hb.2⟩, hl⟩

/-- Shape of the extract-phase snapshots persisted by the live loop: all
carry phase `extract` and total `total`, processed counters climb from
`f`, and consecutive pairs are monotone with constant total. -/
lemma liveLoop_snaps (verifs : List (String × VerifyClaimResponse)) (skip : List String)
    (total : ℕ) :
    ∀ (comps : List (ℕ × ExtractOutcome)) (f : ℕ), f + comps.length ≤ total →
      monoTotalsOk ((liveLoop verifs skip total f comps).snaps) = true ∧
      ∀ sn ∈ (liveLoop verifs skip total f comps).snaps,
        sn.phase = "extract" ∧ sn.total = total ∧ f ≤ sn.processed ∧ sn.processed ≤ total := by
  intro comps
  induction comps with
  | nil =>
    intro f hf
    refine ⟨rfl, ?_⟩
    intro sn hsn
    simp only [liveLoop, List.mem_singleton] at hsn
    subst hsn
    simp at hf
    exact ⟨rfl, rfl, hf, le_refl total⟩
  | cons po rest ih =>
    intro f hf
    obtain ⟨pn, o⟩ := po
    rcases ho : extract_claims_from_page pn o with e | raw
    · simp [liveLoop, ho, monoTotalsOk]
    · by_cases hab : (emitPageClaims verifs skip (onePageClaims pn raw)).aborted
      · simp [liveLoop, ho, hab, monoTotalsOk]
      · have hf' : (f + 1) + rest.length ≤ total := by
          simp only [List.length_cons] at hf; omega
        obtain ⟨ihm, ihb⟩ := ih (f + 1) hf'
        simp only [liveLoop, ho, hab, Bool.false_eq_true, if_false]
        constructor
        · refine monoTotalsOk_cons _ _ ihm ?_
          intro b hb
          obtain ⟨_, hbt, hbp, _⟩ := ihb b hb
          exact ⟨hbp, hbt.symm⟩
        · intro sn hsn
          rcases List.mem_cons.mp hsn with hsn | hsn
          · subst hsn
            simp only [List.length_cons] at hf
            refine ⟨rfl, rfl, ?_, ?_⟩
            · show f ≤ f + 1
              omega
            · show f + 1 ≤ total
              omega
          · obtain ⟨hph, hbt, hbp, hble⟩ := ihb sn hsn
            exact ⟨hph, hbt, by omega, hble⟩

/-- Shape of the parse-phase snapshots: phase `parse`, total constant,
processed climbing from `i` and bounded by `total`. -/
lemma parseSnapsFrom_props (total : ℕ) :
    ∀ (fuel i : ℕ), i + fuel ≤ total + 1 →
      monoTotalsOk (parseSnapsFrom total i fuel) = true ∧
      ∀ sn ∈ parseSnapsFrom total i fuel,
        sn.phase = "parse" ∧ sn.total = total ∧ i ≤ sn.processed ∧ sn.processed ≤ total := by
  intro fuel
  induction fuel with
  | zero =>
    intro i hi
    exact ⟨rfl, by intro sn hsn; simp [parseSnapsFrom] at hsn⟩
  | succ fu ih =>
    intro i hi
    have hi' : (i + 1) + fu ≤ total + 1 := by omega
    obtain ⟨ihm, ihb⟩ := ih (i + 1) hi'
    constructor
    · refine monoTotalsOk_cons _ _ ihm ?_
      intro b hb
      obtain ⟨_, hbt, hbp, _⟩ := ihb b hb
      refine ⟨?_, hbt.symm⟩
      show i ≤ b.processed
      omega
    · intro sn hsn
      rcases List.mem_cons.mp hsn with hsn | hsn
      · subst hsn
        refine ⟨rfl, rfl, le_refl i, ?_⟩
        show i ≤ total
        omega
      · obtain ⟨hph, hbt, hbp, hble⟩ := ihb sn hsn
        exact ⟨hph, hbt, by omega, hble⟩

/-- Progress events are never claim events. -/
lemma claim_not_mem_progress (p : Claim) (l : List PhaseSnap) :
    Event.claim p ∉ l.map progressEvent := by
  intro h
  obtain ⟨sn, _, hsn⟩ := List.mem_map.mp h
  simp [progressEvent] at hsn

/-- Lifting of `liveLoop_claims` over the optional parse prefix. -/
lemma make_live_stream_claims (verifs : List (String × VerifyClaimResponse))
    (skip : List String) (pages : List (ℕ × String))
    (completions : List (ℕ × ExtractOutcome)) (ep : Bool) (p : Claim)
    (hp : Event.claim p ∈ (make_live_stream verifs skip pages completions ep).events) :
    ∃ c : RawClaim, ∃ st, c.id ≠ "" ∧ c.id ∉ skip ∧ statusOfString c.status = some st ∧
      p = _merge_verification verifs (mkLiveClaim c st) := by
  unfold make_live_stream at hp
  simp only [List.mem_append] at hp
  rcases hp with hp | hp
  · exfalso
    rcases ep with _ | _
    · simp at hp
    · exact claim_not_mem_progress p _ (by simpa using hp)
  · exact liveLoop_claims verifs skip pages.length completions 0 p hp

/-- The appends of a live run come from `liveLoop`. -/
lemma make_live_stream_appends (verifs : List (String × VerifyClaimResponse))
    (skip : List String) (pages : List (ℕ × String))
    (completions : List (ℕ × ExtractOutcome)) (ep : Bool) (cl : Claim)
    (hcl : cl ∈ (make_live_stream verifs skip pages completions ep).appends) :
    ∃ c : RawClaim, ∃ st, c.id ≠ "" ∧ c.id ∉ skip ∧ statusOfString c.status = some st ∧
      cl = mkLiveClaim c st :=
  liveLoop_appends verifs skip pages.length completions 0 cl hcl

/-- A live run that did not abort ends with a done event. -/
lemma make_live_stream_done (verifs : List (String × VerifyClaimResponse))
    (skip : List String) (pages : List (ℕ × String))
    (completions : List (ℕ × ExtractOutcome)) (ep : Bool)
    (h : (make_live_stream verifs skip pages completions ep).aborted = false) :
    ∃ l, (make_live_stream verifs skip pages completions ep).events = l ++ [Event.done] := by
  obtain ⟨l, hl⟩ := liveLoop_done verifs skip pages.length completions 0 h
  refine ⟨(if ep then parseSnaps pages.length else []).map progressEvent ++ l, ?_⟩
  show (if ep then parseSnaps pages.length else []).map progressEvent ++
    (liveLoop verifs skip pages.length 0 completions).events = _
  rw [hl, List.append_assoc]

/-- The snapshots of a live run: per phase they are monotone with constant
total, and processed never exceeds total. -/
lemma make_live_stream_snaps (verifs : List (String × VerifyClaimResponse))
    (skip : List String) (pages : List (ℕ × String))
    (completions : List (ℕ × ExtractOutcome)) (ep : Bool)
    (hc : completions.length = pages.length) :
    (∀ ph, monoTotalsOk (snapsForPhase ph
      (make_live_stream verifs skip pages completions ep).snaps) = true) ∧
    (∀ sn ∈ (make_live_stream verifs skip pages completions ep).snaps,
      sn.processed ≤ sn.total) := by
  have hlive := liveLoop_snaps verifs skip pages.length completions 0 (by omega)
  have hparse := parseSnapsFrom_props pages.length (pages.length + 1) 0 (by omega)
  have hshape : (make_live_stream verifs skip pages completions ep).snaps =
      (if ep then parseSnaps pages.length else []) ++
        (liveLoop verifs skip pages.length 0 completions).snaps := rfl
  constructor
  · intro ph
    rw [hshape]
    unfold snapsForPhase
    rw [List.filter_append]
    by_cases hp : ph = "parse"
    · have h1 : (if ep then parseSnaps pages.length else []).filter
          (fun sn => sn.phase == ph) = (if ep then parseSnaps pages.length else []) := by
        rw [List.filter_eq_self]
        intro a ha
        rcases ep with _ | _
        · simp at ha
        · have := (hparse.2 a (by simpa [parseSnaps] using ha)).1
          simp [this, hp]
      have h2 : ((liveLoop verifs skip pages.length 0 completions).snaps).filter
          (fun sn => sn.phase == ph) = [] := by
        rw [List.filter_eq_nil]
        intro a ha
        have := (hlive.2 a ha).1
        simp [this, hp]
      rw [h1, h2, List.append_nil]
      rcases ep with _ | _
      · rfl
      · simpa [parseSnaps] using hparse.1
    · have h1 : (if ep then parseSnaps pages.length else []).filter
          (fun sn => sn.phase == ph) = [] := by
        rw [List.filter_eq_nil]
        intro a ha
        rcases ep with _ | _
        · simp at ha
        · have := (hparse.2 a (by simpa [parseSnaps] using ha)).1
          simp [this]
          intro hcon
          exact hp (hcon ▸ rfl)
      rw [h1, List.nil_append]
      by_cases he : ph = "extract"
      · have h2 : ((liveLoop verifs skip pages.length 0 completions).snaps).filter
            (fun sn => sn.phase == ph) =
            (liveLoop verifs skip pages.length 0 completions).snaps := by
          rw [List.filter_eq_self]
          intro a ha
          have := (hlive.2 a ha).1
          simp [this, he]
        rw [h2]
        exact hlive.1
      · have h2 : ((liveLoop verifs skip pages.length 0 completions).snaps).filter
            (fun sn => sn.phase == ph) = [] := by
          rw [List.filter_eq_nil]
          intro a ha
          have := (hlive.2 a ha).1
          simp [this]
          intro hcon
          exact he (hcon ▸ rfl)
        rw [h2]
        rfl
  · intro sn hsn
    rw [hshape] at hsn
    rcases List.mem_append.mp hsn with h | h
    · rcases ep with _ | _
      · simp at h
      · obtain ⟨_, ht, _, hb⟩ := hparse.2 sn (by simpa [parseSnaps] using h)
        omega
    · obtain ⟨_, ht, _, hb⟩ := hlive.2 sn h
      omega

/-- `claimPayloads` distributes over append. -/
lemma claimPayloads_append (a b : List Event) :
    claimPayloads (a ++ b) = claimPayloads a ++ claimPayloads b :=
  List.filterMap_append a b _

/-- The snapshot re-sync event carries no claim payload. -/
lemma claimPayloads_pre (s : StreamState) : claimPayloads (preEvents s) = [] := by
  unfold preEvents
  rcases s.snap with _ | sn
  · rfl
  · by_cases h : 0 < sn.total ∧ sn.phase ∈ validPhases
    · simp [h, claimPayloads, progressEvent]
    · simp [h, claimPayloads]

/-- The payloads of mapped claim events. -/
lemma claimPayloads_map_claim (l : List Claim) (f : Claim → Claim) :
    claimPayloads (l.map (fun c => Event.claim (f c))) = l.map f := by
  induction l with
  | nil => rfl
  | cons c rest ih => simp [claimPayloads, List.filterMap_cons] at ih ⊢; exact ih

/-- The replay events carry exactly the overlaid buffered claims. -/
lemma claimPayloads_replay (s : StreamState) :
    claimPayloads (replayEvents s) = (replayedClaims s).map (overlayReplay s.verifs) :=
  claimPayloads_map_claim _ _

/-- Every known-job stream decomposes as snapshot re-sync, then the full
replay, then the post-replay tail. -/
lemma stream_claims_decomp (s : StreamState) (j : Job) (hj : s.job = some j) :
    (stream_claims s).events = preEvents s ++ replayEvents s ++ liveEventsOf s := by
  simp only [stream_claims, liveEventsOf, hj]
  by_cases hf : pyLower j.status = "finished"
  · simp [hf, doneResult]
  · rcases hpd : s.pdfPages with _ | pgs
    · simp [hf, doneResult]
    · rcases pgs with _ | ⟨pg, pgs⟩
      · simp [hf, doneResult]
      · simp [hf, List.append_assoc]

/-- C2: a stream call on a finished job appends nothing, never invokes live
extraction, replays exactly the overlaid buffered claims, terminates with
done, leaves the durable state unchanged — and therefore a second call
returns the identical result (same claims, same order, then done). -/
theorem stream_finished_idempotent (s : StreamState) (j : Job)
    (hjob : s.job = some j) (hstat : j.status = "finished") :
    (stream_claims s).appends = [] ∧
    (stream_claims s).liveInvoked = false ∧
    claimPayloads (stream_claims s).events
      = (replayedClaims s).map (overlayReplay s.verifs) ∧
    (∃ l, (stream_claims s).events = l ++ [Event.done]) ∧
    applyResult s (stream_claims s) = s ∧
    stream_claims (applyResult s (stream_claims s)) = stream_claims s := by
  have hfin : pyLower j.status = "finished" := by rw [hstat]; rfl
  have hres : stream_claims s = doneResult (preEvents s ++ replayEvents s ++ [Event.done]) := by
    simp only [stream_claims, hjob]
    rw [if_pos hfin]
  have happ : (stream_claims s).appends = [] := by rw [hres]; rfl
  have hinv : (stream_claims s).liveInvoked = false := by rw [hres]; rfl
  have hpay : claimPayloads (stream_claims s).events
      = (replayedClaims s).map (overlayReplay s.verifs) := by
    rw [hres]
    show claimPayloads (preEvents s ++ replayEvents s ++ [Event.done]) = _
    rw [claimPayloads_append, claimPayloads_append, claimPayloads_pre, claimPayloads_replay]
    simp [claimPayloads]
  have hstate : applyResult s (stream_claims s) = s := by
    rw [hres]
    simp [applyResult, doneResult]
  exact ⟨happ, hinv, hpay, ⟨preEvents s ++ replayEvents s, by rw [hres]; rfl⟩,
    hstate, by rw [hstate]⟩

/-- C2 witness: a concrete finished job with one buffered claim. -/
theorem stream_finished_idempotent_w :
    (stream_claims c2State).appends = [] ∧ (stream_claims c2State).liveInvoked = false :=
  ⟨(stream_finished_idempotent c2State { id := "job-c2", status := "finished" } rfl rfl).1,
   (stream_finished_idempotent c2State { id := "job-c2", status := "finished" } rfl rfl).2.1⟩

/-- Membership in `claimPayloads` is membership of the claim event. -/
lemma mem_claimPayloads {p : Claim} {evs : List Event} :
    p ∈ claimPayloads evs ↔ Event.claim p ∈ evs := by
  unfold claimPayloads
  rw [List.mem_filterMap]
  constructor
  · rintro ⟨e, he, hfe⟩
    cases e with
    | claim q =>
      simp only [Option.some.injEq] at hfe
      rw [← hfe]
      exact he
    | progress ph pr t => simp at hfe
    | error m => simp at hfe
    | done => simp at hfe
  · intro h
    exact ⟨Event.claim p, h, rfl⟩

/-- `mkLiveClaim` keeps the dict's id. -/
lemma mkLiveClaim_id (c : RawClaim) (st : ClaimStatus) : (mkLiveClaim c st).id = c.id := rfl

/-- Characterization of the post-replay claim payloads of a stream call:
each is an overlaid live claim whose non-empty id is outside the set of
replayed ids. -/
lemma liveEventsOf_claims (s : StreamState) (p : Claim)
    (hp : p ∈ claimPayloads (liveEventsOf s)) :
    ∃ c : RawClaim, ∃ st, c.id ≠ "" ∧ c.id ∉ (replayedClaims s).map (fun c => c.id) ∧
      statusOfString c.status = some st ∧
      p = _merge_verification s.verifs (mkLiveClaim c st) := by
  rw [mem_claimPayloads] at hp
  rcases hj : s.job with _ | j
  · simp only [liveEventsOf, hj] at hp; simp at hp
  · simp only [liveEventsOf, hj] at hp
    by_cases hf : pyLower j.status = "finished"
    · rw [if_pos hf] at hp; simp at hp
    · rw [if_neg hf] at hp
      rcases hpd : s.pdfPages with _ | pgs
      · rw [hpd] at hp; simp at hp
      · rw [hpd] at hp
        rcases pgs with _ | ⟨pg, pgs⟩
        · simp at hp
        · simp only [List.mem_append] at hp
          rcases hp with hp | hp
          · exact make_live_stream_claims s.verifs _ (pg :: pgs) s.completions
              (emitParseOf s) p hp
          · by_cases hab : (liveOf s (pg :: pgs)).aborted <;> simp [hab] at hp

/-- Characterization of the appends of a stream call. -/
lemma stream_claims_appends_mem (s : StreamState) (cl : Claim)
    (hcl : cl ∈ (stream_claims s).appends) :
    ∃ c : RawClaim, ∃ st, c.id ≠ "" ∧ c.id ∉ (replayedClaims s).map (fun c => c.id) ∧
      statusOfString c.status = some st ∧ cl = mkLiveClaim c st := by
  rcases hj : s.job with _ | j
  · simp only [stream_claims, hj] at hcl; simp [doneResult] at hcl
  · simp only [stream_claims, hj] at hcl
    by_cases hf : pyLower j.status = "finished"
    · rw [if_pos hf] at hcl; simp [doneResult] at hcl
    · rw [if_neg hf] at hcl
      rcases hpd : s.pdfPages with _ | pgs
      · rw [hpd] at hcl; simp [doneResult] at hcl
      · rw [hpd] at hcl
        rcases pgs with _ | ⟨pg, pgs⟩
        · simp [doneResult] at hcl
        · exact make_live_stream_appends s.verifs _ (pg :: pgs) s.completions
            (emitParseOf s) cl hcl

/-- C4: a claim id replayed from the buffer is never re-emitted by live
extraction of the same stream (even if the extractor regenerates it), is
never re-appended to the buffer, and the whole replay precedes every
live-extraction event in the emitted sequence. -/
theorem replay_skip_correct (s : StreamState) (j : Job) (cid : String)
    (hjob : s.job = some j)
    (hmem : cid ∈ (replayedClaims s).map (fun c => c.id)) :
    (∀ p ∈ claimPayloads (liveEventsOf s), p.id ≠ cid) ∧
    (∀ cl ∈ (stream_claims s).appends, cl.id ≠ cid) ∧
    (stream_claims s).events = preEvents s ++ replayEvents s ++ liveEventsOf s := by
  refine ⟨?_, ?_, stream_claims_decomp s j hjob⟩
  · intro p hp
    obtain ⟨c, st, hne, hnotin, hst, hpe⟩ := liveEventsOf_claims s p hp
    have hid : p.id = c.id := by rw [hpe, merge_verification_id, mkLiveClaim_id]
    rw [hid]
    intro hcontra
    exact hnotin (hcontra ▸ hmem)
  · intro cl hcl
    obtain ⟨c, st, hne, hnotin, hst, hpe⟩ := stream_claims_appends_mem s cl hcl
    have hid : cl.id = c.id := by rw [hpe, mkLiveClaim_id]
    rw [hid]
    intro hcontra
    exact hnotin (hcontra ▸ hmem)

/-- C4 witness: the buffered id `a` is regenerated by the extractor and the
decomposition holds on the concrete resumed stream. -/
theorem replay_skip_correct_w :
    (stream_claims c4State).events
      = preEvents c4State ++ replayEvents c4State ++ liveEventsOf c4State :=
  (replay_skip_correct c4State { id := "job-c4", status := "streaming" } "a" rfl
    (by decide)).2.2

/-- Every claim payload a stream call emits is either a replayed buffered
claim passed through `overlayReplay`, or a live claim with non-empty id
passed through `_merge_verification`. -/
lemma stream_claims_claim_forms (s : StreamState) (p : Claim)
    (hp : p ∈ claimPayloads (stream_claims s).events) :
    (∃ c, p = overlayReplay s.verifs c) ∨
    (∃ c, c.id ≠ "" ∧ p = _merge_verification s.verifs c) := by
  rcases hj : s.job with _ | j
  · rw [mem_claimPayloads] at hp
    simp only [stream_claims, hj, doneResult] at hp
    simp at hp
  · rw [stream_claims_decomp s j hj, claimPayloads_append, claimPayloads_append,
      claimPayloads_pre, claimPayloads_replay] at hp
    simp only [List.nil_append, List.mem_append] at hp
    rcases hp with hp | hp
    · obtain ⟨c, _, hc⟩ := List.mem_map.mp hp
      exact Or.inl ⟨c, hc.symm⟩
    · obtain ⟨c, st, hne, _, _, hpe⟩ := liveEventsOf_claims s p hp
      exact Or.inr ⟨mkLiveClaim c st, hne, hpe⟩

/-- C5: once a verification record is persisted for a (job, claim) pair,
every later emission of that claim — replayed or live — carries the
record's verdict, confidence, reasoning and (when non-empty) evidence with
`sourceUploaded = true`; the buffer itself is only ever appended to, and
the appended entries are stored un-overlaid. -/
theorem verification_overlay (s : StreamState) (cid : String) (vr : VerifyClaimResponse)
    (hcid : cid ≠ "") (hvr : lookupV s.verifs cid = some vr) :
    (∀ p ∈ claimPayloads (stream_claims s).events, p.id = cid →
        p.verdict = some vr.verdict ∧ p.confidence = some vr.confidence ∧
        p.reasoningMd = some vr.reasoningMd ∧ p.sourceUploaded = true ∧
        (∀ e es, vr.evidence = some (e :: es) → p.evidence = some (e :: es))) ∧
    (∃ t, (applyResult s (stream_claims s)).buffered = s.buffered ++ t) ∧
    (∀ cl ∈ (stream_claims s).appends, cl.verdict = none ∧ cl.confidence = none ∧
        cl.sourceUploaded = false ∧ cl.evidence = none) := by
  refine ⟨?_, ⟨(stream_claims s).appends.map BufferEntry.ofClaim, rfl⟩, ?_⟩
  · intro p hp hpid
    have hform : ∃ c, p = overlayReplay s.verifs c := by
      rcases stream_claims_claim_forms s p hp with h | ⟨c, hne, hpe⟩
      · exact h
      · refine ⟨c, ?_⟩
        rw [hpe]
        unfold _merge_verification
        rw [if_neg hne]
    obtain ⟨c, hpc⟩ := hform
    have hcidc : c.id = cid := by rw [← hpid, hpc, overlayReplay_id]
    have : p = stream_merge_saved c vr := by
      rw [hpc]
      unfold overlayReplay
      rw [hcidc, hvr]
    subst this
    refine ⟨rfl, rfl, rfl, rfl, ?_⟩
    intro e es hev
    show (match vr.evidence with
      | some (e :: es) => some (e :: es)
      | _ => c.evidence) = some (e :: es)
    rw [hev]
  · intro cl hcl
    obtain ⟨c, st, _, _, _, hpe⟩ := stream_claims_appends_mem s cl hcl
    rw [hpe]
    exact ⟨rfl, rfl, rfl, rfl⟩

/-- C5 witness: the finished job `c5State` replays claim `a` overlaid with
its persisted record. -/
theorem verification_overlay_w :
    c5Payload.verdict = some c5Rec.verdict ∧ c5Payload.sourceUploaded = true :=
  ⟨((verification_overlay c5State "a" c5Rec (by decide) rfl).1 c5Payload
      (by decide) rfl).1,
   ((verification_overlay c5State "a" c5Rec (by decide) rfl).1 c5Payload
      (by decide) rfl).2.2.2.1⟩

/-- Every stream terminates with a done event, whatever the state. -/
lemma stream_claims_terminates (s : StreamState) :
    ∃ l, (stream_claims s).events = l ++ [Event.done] := by
  rcases hj : s.job with _ | j
  · exact ⟨[Event.error "Unknown or expired jobId"], by simp [stream_claims, hj, doneResult]⟩
  · by_cases hf : pyLower j.status = "finished"
    · refine ⟨preEvents s ++ replayEvents s, ?_⟩
      simp only [stream_claims, hj]
      rw [if_pos hf]
      rfl
    · rcases hpd : s.pdfPages with _ | pgs
      · refine ⟨preEvents s ++ replayEvents s, ?_⟩
        simp only [stream_claims, hj, hpd]
        rw [if_neg hf]
        rfl
      · rcases pgs with _ | ⟨pg, pgs⟩
        · refine ⟨preEvents s ++ replayEvents s, ?_⟩
          simp only [stream_claims, hj, hpd]
          rw [if_neg hf]
          rfl
        · have hev : (stream_claims s).events = preEvents s ++ replayEvents s ++
              (liveOf s (pg :: pgs)).events ++
              (if (liveOf s (pg :: pgs)).aborted then [Event.done] else []) := by
            simp only [stream_claims, hj, hpd]
            rw [if_neg hf]
          by_cases hab : (liveOf s (pg :: pgs)).aborted
          · refine ⟨preEvents s ++ replayEvents s ++ (liveOf s (pg :: pgs)).events, ?_⟩
            rw [hev, if_pos hab]
          · obtain ⟨l, hl⟩ := make_live_stream_done s.verifs _ (pg :: pgs) s.completions
              (emitParseOf s) (by simpa using hab)
            refine ⟨preEvents s ++ replayEvents s ++ l, ?_⟩
            rw [hev, if_neg hab]
            show preEvents s ++ replayEvents s ++
              (make_live_stream s.verifs _ (pg :: pgs) s.completions (emitParseOf s)).events
              ++ [] = _
            rw [hl]
            simp [List.append_assoc]

/-- C1 counterexample: a transport failure on a page's extraction call is
not recovered as an empty claim list (the call raises instead), and in a
live run whose first-completed page fails in transport, the sibling page's
claim is never emitted: the run aborts with no claim events. -/
theorem extract_failure_cex :
    extract_claims_from_page 1 ExtractOutcome.transportError ≠ Except.ok [] ∧
    c1Live.aborted = true ∧
    claimPayloads c1Live.events = [] := by
  refine ⟨fun h => Except.noConfusion h, by decide, by decide⟩

/-- C1 (amended): a response body that fails to parse is recovered locally
as an empty claim list for the page; a transport failure of the external
call raises instead, and the raise is converted at the stream boundary into
a clean terminating done (never a failed stream) — but it ends the live
run, so claims of sibling pages completing after it are not emitted by that
stream (they are re-extracted on resume). -/
theorem extract_failure_amended :
    (∀ pn, extract_claims_from_page pn (ExtractOutcome.response none) = Except.ok []) ∧
    (∀ pn, extract_claims_from_page pn ExtractOutcome.transportError = Except.error ()) ∧
    (∀ s : StreamState, ∃ l, (stream_claims s).events = l ++ [Event.done]) :=
  ⟨fun pn => rfl, fun pn => rfl, stream_claims_terminates⟩

/-- C3 counterexample: pages of `c3Run` extract with zero claims; the
client disconnects after five snapshots are persisted — parse 0,1,2 and
extract 1,2 — leaving status `streaming`.  The resumed stream re-runs
extraction from page one, so the persisted extract-phase sequence across
the resume is 1,2 then 1,2,2: `processed` regresses from 2 to 1 within the
extract phase. -/
theorem progress_resume_cex :
    monoTotalsOk (snapsForPhase "extract"
      ((stream_claims c3Run).snaps.take 5 ++
        (stream_claims (disconnectAfter c3Run 5)).snaps)) = false ∧
    (stream_claims c3Run).snaps.take 5
      = [⟨"parse", 0, 2⟩, ⟨"parse", 1, 2⟩, ⟨"parse", 2, 2⟩,
         ⟨"extract", 1, 2⟩, ⟨"extract", 2, 2⟩] ∧
    (stream_claims (disconnectAfter c3Run 5)).snaps
      = [⟨"extract", 1, 2⟩, ⟨"extract", 2, 2⟩, ⟨"extract", 2, 2⟩] := by
  refine ⟨by decide, by decide, by decide⟩

/-- C3 (amended): within one uninterrupted stream call, for every phase the
persisted snapshots have non-decreasing `processed` and constant `total`,
and `processed ≤ total` holds whenever `total > 0` — but across a resume
after a disconnect the extract-phase counter restarts from 1 and may
regress (see the counterexample). -/
theorem progress_monotone_amended (s : StreamState)
    (hc : ∀ pages, s.pdfPages = some pages → s.completions.length = pages.length) :
    (∀ ph, monoTotalsOk (snapsForPhase ph (stream_claims s).snaps) = true) ∧
    (∀ sn ∈ (stream_claims s).snaps, 0 < sn.total → sn.processed ≤ sn.total) := by
  rcases hj : s.job with _ | j
  · have h : (stream_claims s).snaps = [] := by simp [stream_claims, hj, doneResult]
    rw [h]
    exact ⟨fun ph => rfl, by simp⟩
  · by_cases hf : pyLower j.status = "finished"
    · have h : (stream_claims s).snaps = [] := by
        simp only [stream_claims, hj]
        rw [if_pos hf]
        rfl
      rw [h]
      exact ⟨fun ph => rfl, by simp⟩
    · rcases hpd : s.pdfPages with _ | pgs
      · have h : (stream_claims s).snaps = [] := by
          simp only [stream_claims, hj, hpd]
          rw [if_neg hf]
          rfl
        rw [h]
        exact ⟨fun ph => rfl, by simp⟩
      · rcases pgs with _ | ⟨pg, pgs⟩
        · have h : (stream_claims s).snaps = [] := by
            simp only [stream_claims, hj, hpd]
            rw [if_neg hf]
            rfl
          rw [h]
          exact ⟨fun ph => rfl, by simp⟩
        · have h : (stream_claims s).snaps = (liveOf s (pg :: pgs)).snaps := by
            simp only [stream_claims, hj, hpd]
            rw [if_neg hf]
          have hlen := hc (pg :: pgs) hpd
          obtain ⟨hm, hb⟩ := make_live_stream_snaps s.verifs
            ((replayedClaims s).map (fun c => c.id)) (pg :: pgs) s.completions
            (emitParseOf s) hlen
          rw [h]
          exact ⟨hm, fun sn hsn _ => hb sn hsn⟩

/-- C3 witness: the uninterrupted run of `c3Run` is monotone in the extract
phase. -/
theorem progress_monotone_amended_w :
    monoTotalsOk (snapsForPhase "extract" (stream_claims c3Run).snaps) = true :=
  (progress_monotone_amended c3Run (by decide)).1 "extract"
